import Mathlib

/-!
Verification of the LawSphere backend ingestion-and-retrieval pipeline.

The definitions below are a shallow embedding of the JavaScript sources:
`ingest.js` (fixed-stride chunker, `chunk-<i>` record ids, SDK upsert loop),
`server.js` (HTTP routes `/ask` and `/compare`, plus the direct-HTTP
ingestion variant with `processFile`, `cleanString`, `sanitizeText`,
`getEmbedding` with its NaN check, and batched upserts), and the earlier
server variant (`/compare` dedup by raw text).  Strings are modelled as
`List Char`; machine numbers that only ever get classified (NaN / infinite /
finite) are modelled by an inductive type; network calls are abstracted as
oracles / supplied result lists, with the handler control flow embedded
faithfully.
-/

/-! ## Chunker (ingest.js lines 14-15, 79-84)

`CHUNK_SIZE = 1000`, `OVERLAP = 200`;
`for (let i = 0; i < rawText.length; i += (CHUNK_SIZE - OVERLAP)) {`
`  const chunk = rawText.substring(i, i + CHUNK_SIZE);`
`  if (chunk.length > 100) chunks.push(chunk); }`

`chunkSpans` additionally records the start offset `i` of each emitted
chunk, for specification purposes; `chunksOf` projects the chunk texts and
is the direct model of the loop. -/

def CHUNK_SIZE : Nat := 1000

def OVERLAP : Nat := 200

def chunkAt (text : List Char) (i : Nat) : List Char :=
  (text.drop i).take CHUNK_SIZE

def chunkSpans (text : List Char) (i : Nat) : List (Nat × List Char) :=
  if _h : i < text.length then
    (if 100 < (chunkAt text i).length then [(i, chunkAt text i)] else []) ++
      chunkSpans text (i + (CHUNK_SIZE - OVERLAP))
  else []
termination_by text.length - i
decreasing_by simp only [CHUNK_SIZE, OVERLAP]; omega

def chunksOf (text : List Char) : List (List Char) :=
  (chunkSpans text 0).map Prod.snd

theorem chunkAt_length (text : List Char) (i : Nat) :
    (chunkAt text i).length = min CHUNK_SIZE (text.length - i) := by
  simp [chunkAt]

theorem chunkSpans_eq_nil (text : List Char) (i : Nat)
    (h : text.length - i ≤ 100) : chunkSpans text i = [] := by
  rw [chunkSpans]
  by_cases hi : i < text.length
  · rw [dif_pos hi]
    have hlen : ¬ 100 < (chunkAt text i).length := by
      rw [chunkAt_length]; simp only [CHUNK_SIZE]; omega
    rw [if_neg hlen, chunkSpans]
    have : ¬ i + (CHUNK_SIZE - OVERLAP) < text.length := by
      simp only [CHUNK_SIZE, OVERLAP]; omega
    rw [dif_neg this]
    simp
  · rw [dif_neg hi]

theorem chunkSpans_cons (text : List Char) (i : Nat)
    (h : 100 < text.length - i) :
    chunkSpans text i = (i, chunkAt text i) :: chunkSpans text (i + 800) := by
  rw [chunkSpans]
  have hi : i < text.length := by omega
  rw [dif_pos hi]
  have hlen : 100 < (chunkAt text i).length := by
    rw [chunkAt_length]; simp only [CHUNK_SIZE]; omega
  rw [if_pos hlen]
  simp [CHUNK_SIZE, OVERLAP]

theorem mem_chunkSpans (text : List Char) :
    ∀ (i : Nat) (sc : Nat × List Char), sc ∈ chunkSpans text i ↔
      ∃ k, sc.1 = i + 800 * k ∧ 100 < text.length - sc.1 ∧
        sc.2 = chunkAt text sc.1 := by
  intro i sc
  constructor
  · intro hmem
    generalize hd : text.length - i = d at *
    induction d using Nat.strong_induction_on generalizing i with
    | _ d ih =>
      by_cases h : 100 < text.length - i
      · rw [chunkSpans_cons text i h] at hmem
        rcases List.mem_cons.mp hmem with h1 | h1
        · exact ⟨0, by simp [h1], by subst h1; simpa using h, by simp [h1]⟩
        · have hdec : text.length - (i + 800) < d := by omega
          obtain ⟨k, hk1, hk2, hk3⟩ := ih _ hdec (i + 800) h1 rfl
          exact ⟨k + 1, by omega, hk2, hk3⟩
      · rw [chunkSpans_eq_nil text i (by omega)] at hmem
        exact absurd hmem (List.not_mem_nil sc)
  · rintro ⟨k, hk1, hk2, hk3⟩
    induction k generalizing i with
    | zero =>
      have hs : sc.1 = i := by omega
      have hsc : sc = (i, chunkAt text i) := by
        obtain ⟨a, b⟩ := sc
        simp only at hs hk3
        subst hs
        rw [hk3]
      rw [chunkSpans_cons text i (hs ▸ hk2), hsc]
      exact List.mem_cons_self _ _
    | succ k ih =>
      have h : 100 < text.length - i := by omega
      rw [chunkSpans_cons text i h]
      right
      exact ih (i + 800) (by omega)

theorem chunkSpans_length_bounds (text : List Char) :
    ∀ i : Nat, (text.length - i + 799) / 800 ≤ (chunkSpans text i).length + 1 ∧
      (chunkSpans text i).length ≤ (text.length - i + 799) / 800 := by
  intro i
  generalize hd : text.length - i = d
  induction d using Nat.strong_induction_on generalizing i with
  | _ d ih =>
    by_cases h : 100 < text.length - i
    · rw [chunkSpans_cons text i h]
      have hdec : text.length - (i + 800) < d := by omega
      obtain ⟨ih1, ih2⟩ := ih _ hdec (i + 800) rfl
      simp only [List.length_cons]
      omega
    · rw [chunkSpans_eq_nil text i (by omega)]
      simp only [List.length_nil]
      omega

theorem chunkSpans_coverage (text : List Char) (h : 100 < text.length)
    (p : Nat) (hp : p < text.length) :
    ∃ sc ∈ chunkSpans text 0, sc.1 ≤ p ∧ p < sc.1 + sc.2.length := by
  have hmod := Nat.div_add_mod p 800
  have hmlt : p % 800 < 800 := Nat.mod_lt p (by omega)
  by_cases hcase : 100 < text.length - 800 * (p / 800)
  · refine ⟨(800 * (p / 800), chunkAt text (800 * (p / 800))), ?_, by omega, ?_⟩
    · exact (mem_chunkSpans text 0 _).mpr ⟨p / 800, by omega, by simpa using hcase, rfl⟩
    · rw [chunkAt_length]
      simp only [CHUNK_SIZE]
      omega
  · -- the stride-aligned chunk at 800*(p/800) is short (or out of range);
    -- the previous chunk covers p because OVERLAP (200) exceeds the 100-char
    -- discard threshold
    have hk : 1 ≤ p / 800 := by
      rcases Nat.eq_zero_or_pos (p / 800) with h0 | h1
      · rw [h0] at hcase; omega
      · exact h1
    refine ⟨(800 * (p / 800 - 1), chunkAt text (800 * (p / 800 - 1))), ?_, by omega, ?_⟩
    · refine (mem_chunkSpans text 0 _).mpr ⟨p / 800 - 1, by omega, ?_, rfl⟩
      simp only
      omega
    · rw [chunkAt_length]
      simp only [CHUNK_SIZE]
      omega

theorem chunkSpans_overlap_chain (text : List Char) :
    ∀ i : Nat, List.Chain'
      (fun a b => a.2.length = CHUNK_SIZE ∧ List.drop 800 a.2 = List.take 200 b.2 ∧
        b.1 = a.1 + 800)
      (chunkSpans text i).dropLast := by
  intro i
  generalize hd : text.length - i = d
  induction d using Nat.strong_induction_on generalizing i with
  | _ d ih =>
    by_cases h : 100 < text.length - i
    · rw [chunkSpans_cons text i h]
      by_cases h2 : 100 < text.length - (i + 800)
      · rw [chunkSpans_cons text (i + 800) h2]
        by_cases h3 : 100 < text.length - (i + 1600)
        · -- three or more spans remain: the head pair is fully inside the text
          have htail := ih (text.length - (i + 800)) (by omega) (i + 800) rfl
          rw [chunkSpans_cons text (i + 800) h2] at htail
          have hne : chunkSpans text (i + 1600) ≠ [] := by
            rw [chunkSpans_cons text (i + 1600) h3]
            exact List.cons_ne_nil _ _
          have hne2 : ((i + 800, chunkAt text (i + 800)) :: chunkSpans text (i + 1600)) ≠ [] :=
            List.cons_ne_nil _ _
          rw [List.dropLast_cons_of_ne_nil hne2]
          rw [List.dropLast_cons_of_ne_nil hne] at htail ⊢
          refine List.chain'_cons'.mpr ⟨?_, htail⟩
          intro b hb
          have hb' : b = (i + 800, chunkAt text (i + 800)) := by
            cases hhead : (chunkSpans text (i + 1600)).dropLast with
            | nil => simp [hhead] at hb; exact hb.symm
            | cons x xs => simp [hhead] at hb; exact hb.symm
          subst hb'
          refine ⟨?_, ?_, rfl⟩
          · rw [chunkAt_length]; simp only [CHUNK_SIZE]; omega
          · simp only [chunkAt, CHUNK_SIZE]
            rw [List.drop_take, List.drop_drop, List.take_take]
            norm_num
        · -- exactly two spans: dropLast is a singleton
          rw [chunkSpans_eq_nil text (i + 1600) (by omega)]
          simp
      · -- exactly one span: dropLast is empty
        rw [chunkSpans_eq_nil text (i + 800) (by omega)]
        simp
    · rw [chunkSpans_eq_nil text i (by omega)]
      simp

/-- C1 (counterexample): the claim quantifies over *every* input text, but a
text of exactly 100 characters yields no chunks at all (the single candidate
chunk has length 100, which is not `> 100`, so it is discarded), hence the
emitted chunks do not cover the full text: even position 0 is uncovered. -/
theorem chunker_full_coverage_fails_at_100 :
    chunksOf (List.replicate 100 'a') = [] ∧
      (List.replicate 100 'a').length = 100 ∧
      ¬ ∃ sc ∈ chunkSpans (List.replicate 100 'a') 0,
        sc.1 ≤ 0 ∧ 0 < sc.1 + sc.2.length := by
  have hnil : chunkSpans (List.replicate 100 'a') 0 = [] :=
    chunkSpans_eq_nil _ 0 (by simp)
  refine ⟨?_, by simp, ?_⟩
  · rw [chunksOf, hnil]; rfl
  · rintro ⟨sc, hsc, -⟩
    rw [hnil] at hsc
    exact List.not_mem_nil sc hsc

/-- C1 (amended: restricted to texts longer than 100 characters, the
minimum-viable-chunk threshold): for chunk size S = 1000 and overlap O = 200,
the chunker's emitted chunks cover the full text; every emitted chunk is the
substring of the text starting at its recorded offset and is longer than 100
characters; every adjacent pair of chunks not involving the final chunk
consists of a full 1000-character chunk sharing exactly 200 characters with
its successor (trailing 200 of the former = leading 200 of the latter, start
offsets 800 apart); and the chunk count is within plus-or-minus 1 of
ceil((L - O) / (S - O)). -/
theorem chunker_coverage_overlap_count (text : List Char)
    (h : 100 < text.length) :
    chunksOf text = (chunkSpans text 0).map Prod.snd ∧
      (∀ p < text.length, ∃ sc ∈ chunkSpans text 0,
        sc.1 ≤ p ∧ p < sc.1 + sc.2.length) ∧
      (∀ sc ∈ chunkSpans text 0,
        sc.2 = chunkAt text sc.1 ∧ 100 < sc.2.length) ∧
      List.Chain'
        (fun a b => a.2.length = CHUNK_SIZE ∧
          List.drop 800 a.2 = List.take 200 b.2 ∧ b.1 = a.1 + 800)
        (chunkSpans text 0).dropLast ∧
      (chunksOf text).length ≤ (text.length - OVERLAP + 799) / 800 + 1 ∧
      (text.length - OVERLAP + 799) / 800 ≤ (chunksOf text).length + 1 := by
  have hlen : (chunksOf text).length = (chunkSpans text 0).length := by
    simp [chunksOf]
  obtain ⟨hb1, hb2⟩ := chunkSpans_length_bounds text 0
  refine ⟨rfl, fun p hp => chunkSpans_coverage text h p hp, ?_, ?_, ?_, ?_⟩
  · intro sc hsc
    obtain ⟨k, hk1, hk2, hk3⟩ := (mem_chunkSpans text 0 sc).mp hsc
    refine ⟨hk3, ?_⟩
    rw [hk3, chunkAt_length]
    simp only [CHUNK_SIZE]
    omega
  · exact chunkSpans_overlap_chain text 0
  · rw [hlen]
    simp only [OVERLAP]
    omega
  · rw [hlen]
    simp only [OVERLAP]
    omega

/-- C1 witness: a concrete 150-character text satisfies the amended claim. -/
theorem chunker_coverage_overlap_count_witness :
    100 < (List.replicate 150 'b').length ∧
      (chunksOf (List.replicate 150 'b') =
          (chunkSpans (List.replicate 150 'b') 0).map Prod.snd ∧
        (∀ p < (List.replicate 150 'b').length,
          ∃ sc ∈ chunkSpans (List.replicate 150 'b') 0,
            sc.1 ≤ p ∧ p < sc.1 + sc.2.length) ∧
        (∀ sc ∈ chunkSpans (List.replicate 150 'b') 0,
          sc.2 = chunkAt (List.replicate 150 'b') sc.1 ∧ 100 < sc.2.length) ∧
        List.Chain'
          (fun a b => a.2.length = CHUNK_SIZE ∧
            List.drop 800 a.2 = List.take 200 b.2 ∧ b.1 = a.1 + 800)
          (chunkSpans (List.replicate 150 'b') 0).dropLast ∧
        (chunksOf (List.replicate 150 'b')).length ≤
          ((List.replicate 150 'b').length - OVERLAP + 799) / 800 + 1 ∧
        ((List.replicate 150 'b').length - OVERLAP + 799) / 800 ≤
          (chunksOf (List.replicate 150 'b')).length + 1) :=
  ⟨by rw [List.length_replicate]; omega,
    chunker_coverage_overlap_count (List.replicate 150 'b')
      (by rw [List.length_replicate]; omega)⟩

/-- C8: chunking a 2300-character document with size 1000 and overlap 200
yields exactly the three chunks at offsets 0, 800 and 1600, of lengths 1000,
1000 and 700 (the last shorter than 1000), i.e. covering [0,1000), [800,1800)
and [1600,2300). -/
theorem chunker_2300_example (text : List Char) (h : text.length = 2300) :
    chunkSpans text 0 =
        [(0, chunkAt text 0), (800, chunkAt text 800), (1600, chunkAt text 1600)] ∧
      chunksOf text = [chunkAt text 0, chunkAt text 800, chunkAt text 1600] ∧
      (chunkAt text 0).length = 1000 ∧ (chunkAt text 800).length = 1000 ∧
      (chunkAt text 1600).length = 700 ∧ 700 < 1000 := by
  have h0 : chunkSpans text 0 = (0, chunkAt text 0) :: chunkSpans text 800 := by
    have := chunkSpans_cons text 0 (by omega)
    simpa using this
  have h800 : chunkSpans text 800 = (800, chunkAt text 800) :: chunkSpans text 1600 := by
    have := chunkSpans_cons text 800 (by omega)
    simpa using this
  have h1600 : chunkSpans text 1600 = (1600, chunkAt text 1600) :: chunkSpans text 2400 := by
    have := chunkSpans_cons text 1600 (by omega)
    simpa using this
  have h2400 : chunkSpans text 2400 = [] := chunkSpans_eq_nil text 2400 (by omega)
  have hspans : chunkSpans text 0 =
      [(0, chunkAt text 0), (800, chunkAt text 800), (1600, chunkAt text 1600)] := by
    rw [h0, h800, h1600, h2400]
  refine ⟨hspans, ?_, ?_, ?_, ?_, by omega⟩
  · rw [chunksOf, hspans]; rfl
  · rw [chunkAt_length, h]; rfl
  · rw [chunkAt_length, h]; rfl
  · rw [chunkAt_length, h]; rfl

/-! ## Sanitization (server.js `sanitizeText`, lines 247-249, and its call
site in `processFile`, line 287)

`function sanitizeText(str) { return str.replace(/\0/g, '').trim(); }`
`const rawText = sanitizeText(pdfData.text.replace(/\s+/g, " "));`

JS `\s` is modelled by `isJsWs` (the ECMAScript WhiteSpace plus
LineTerminator set); `replace(/\s+/g, " ")` collapses each maximal
whitespace run to a single space (`collapseWs`, with an in-run flag so the
recursion is structural); the null byte is *not* whitespace in JS, so it
survives collapsing and is only removed afterwards. -/

def nullChar : Char := '\x00'

def isJsWs (c : Char) : Bool :=
  c = ' ' || c = '\t' || c = '\n' || c = '\r' || c = '\x0b' || c = '\x0c' ||
    c = ' ' || c = ' ' || (' ' ≤ c && c ≤ ' ') ||
    c = ' ' || c = ' ' || c = ' ' || c = ' ' ||
    c = '　' || c = '﻿'

def collapseAux : Bool → List Char → List Char
  | _, [] => []
  | inRun, c :: cs =>
    if isJsWs c then (if inRun then [] else [' ']) ++ collapseAux true cs
    else c :: collapseAux false cs

def collapseWs (l : List Char) : List Char := collapseAux false l

def jsTrim (l : List Char) : List Char :=
  ((l.dropWhile isJsWs).reverse.dropWhile isJsWs).reverse

def sanitizeText (l : List Char) : List Char :=
  jsTrim (l.filter (fun c => c != nullChar))

def sanitizedRawText (l : List Char) : List Char :=
  sanitizeText (collapseWs l)

def hasWsRun : List Char → Bool
  | [] => false
  | [_] => false
  | a :: b :: rest => (isJsWs a && isJsWs b) || hasWsRun (b :: rest)

theorem collapseAux_true_head (l : List Char) :
    ∀ c, (collapseAux true l).head? = some c → isJsWs c = false := by
  induction l with
  | nil => intro c hc; simp [collapseAux] at hc
  | cons x xs ih =>
    intro c hc
    by_cases hx : isJsWs x
    · rw [collapseAux, if_pos hx] at hc
      simpa using ih c (by simpa using hc)
    · rw [collapseAux, if_neg hx] at hc
      simp only [List.head?_cons, Option.some.injEq] at hc
      rw [← hc]
      exact eq_false_of_ne_true hx

theorem collapseAux_chain (l : List Char) :
    ∀ b, List.Chain' (fun a c => isJsWs a = false ∨ isJsWs c = false)
      (collapseAux b l) := by
  induction l with
  | nil => intro b; simp [collapseAux]
  | cons x xs ih =>
    intro b
    by_cases hx : isJsWs x
    · rw [collapseAux, if_pos hx]
      cases b with
      | true => simpa using ih true
      | false =>
        rw [if_neg Bool.false_ne_true, List.singleton_append]
        refine List.chain'_cons'.mpr ⟨?_, ih true⟩
        intro y hy
        exact Or.inr (collapseAux_true_head xs y hy)
    · rw [collapseAux, if_neg hx]
      exact List.chain'_cons'.mpr
        ⟨fun y _ => Or.inl (eq_false_of_ne_true hx), ih false⟩

theorem mem_collapseAux (l : List Char) :
    ∀ b x, x ∈ collapseAux b l → x = ' ' ∨ x ∈ l := by
  induction l with
  | nil => intro b x hx; simp [collapseAux] at hx
  | cons c cs ih =>
    intro b x hx
    by_cases hc : isJsWs c
    · rw [collapseAux, if_pos hc] at hx
      rcases List.mem_append.mp hx with h1 | h1
      · cases b with
        | true => simp at h1
        | false => simp at h1; exact Or.inl h1
      · rcases ih true x h1 with h2 | h2
        · exact Or.inl h2
        · exact Or.inr (List.mem_cons_of_mem c h2)
    · rw [collapseAux, if_neg hc] at hx
      rcases List.mem_cons.mp hx with h1 | h1
      · exact Or.inr (h1 ▸ List.mem_cons_self c cs)
      · rcases ih false x h1 with h2 | h2
        · exact Or.inl h2
        · exact Or.inr (List.mem_cons_of_mem c h2)

theorem mem_jsTrim (l : List Char) (x : Char) (hx : x ∈ jsTrim l) : x ∈ l := by
  rw [jsTrim, List.mem_reverse] at hx
  have h1 := (List.dropWhile_suffix isJsWs).sublist.mem hx
  rw [List.mem_reverse] at h1
  exact (List.dropWhile_suffix isJsWs).sublist.mem h1

theorem chain'_jsTrim {R : Char → Char → Prop}
    (hsymm : ∀ a b, R a b → R b a) (l : List Char)
    (h : List.Chain' R l) : List.Chain' R (jsTrim l) := by
  have h1 : List.Chain' R (l.dropWhile isJsWs) :=
    h.suffix (List.dropWhile_suffix isJsWs)
  have h2 : List.Chain' (flip R) (l.dropWhile isJsWs) :=
    h1.imp (fun a b hab => hsymm a b hab)
  have h3 : List.Chain' R (l.dropWhile isJsWs).reverse :=
    List.chain'_reverse.mpr h2
  have h4 : List.Chain' R ((l.dropWhile isJsWs).reverse.dropWhile isJsWs) :=
    h3.suffix (List.dropWhile_suffix isJsWs)
  have h5 : List.Chain' (flip R) ((l.dropWhile isJsWs).reverse.dropWhile isJsWs) :=
    h4.imp (fun a b hab => hsymm a b hab)
  exact List.chain'_reverse.mpr h5

/-- C9 (counterexample): sanitizing `"a \0 \x01b"` (a null byte flanked by
spaces, followed by a control byte) yields `"a  \x01b"`: removing the null
byte *after* whitespace collapsing leaves two adjacent spaces, and the
non-null control byte `\x01` survives — contradicting "no null/control bytes
and no run of two or more consecutive whitespace characters". -/
theorem sanitize_wsrun_and_control_counterexample :
    sanitizedRawText ['a', ' ', '\x00', ' ', '\x01', 'b'] =
        ['a', ' ', ' ', '\x01', 'b'] ∧
      hasWsRun (sanitizedRawText ['a', ' ', '\x00', ' ', '\x01', 'b']) = true ∧
      '\x01' ∈ sanitizedRawText ['a', ' ', '\x00', ' ', '\x01', 'b'] ∧
      ('\x01'.toNat < 32) := by
  refine ⟨by decide, by decide, by decide, by decide⟩

/-- C9 (amended): the sanitization step produces a string containing no null
bytes; but non-null control bytes are preserved, and removing a null byte may
rejoin two whitespace characters, so the no-whitespace-run guarantee holds
only for input texts that contain no null byte. -/
theorem sanitize_no_null_and_collapse (text : List Char) :
    nullChar ∉ sanitizedRawText text ∧
      (nullChar ∉ text →
        List.Chain' (fun a c => isJsWs a = false ∨ isJsWs c = false)
          (sanitizedRawText text)) := by
  constructor
  · intro hmem
    have h1 := mem_jsTrim _ _ hmem
    rw [List.mem_filter] at h1
    simp at h1
  · intro hnn
    have hfe : (collapseWs text).filter (fun c => c != nullChar) = collapseWs text := by
      rw [List.filter_eq_self]
      intro a ha
      rcases mem_collapseAux text false a ha with h1 | h1
      · subst h1; decide
      · simp only [bne_iff_ne, ne_eq]
        exact fun hcon => hnn (hcon ▸ h1)
    rw [sanitizedRawText, sanitizeText, hfe, collapseWs]
    exact chain'_jsTrim (fun a b hab => hab.symm) _ (collapseAux_chain text false)

/-- C9 witness: a concrete null-free input for the amended guarantee. -/
theorem sanitize_no_null_and_collapse_witness :
    nullChar ∉ sanitizedRawText ['x', ' ', '\t', 'y'] ∧
      List.Chain' (fun a c => isJsWs a = false ∨ isJsWs c = false)
        (sanitizedRawText ['x', ' ', '\t', 'y']) :=
  ⟨(sanitize_no_null_and_collapse ['x', ' ', '\t', 'y']).1,
    (sanitize_no_null_and_collapse ['x', ' ', '\t', 'y']).2 (by decide)⟩

/-- C8 witness: the 2300-character property instantiated at a concrete text. -/
theorem chunker_2300_example_witness :
    (List.replicate 2300 'c').length = 2300 ∧
      (chunkSpans (List.replicate 2300 'c') 0 =
          [(0, chunkAt (List.replicate 2300 'c') 0),
            (800, chunkAt (List.replicate 2300 'c') 800),
            (1600, chunkAt (List.replicate 2300 'c') 1600)] ∧
        chunksOf (List.replicate 2300 'c') =
          [chunkAt (List.replicate 2300 'c') 0,
            chunkAt (List.replicate 2300 'c') 800,
            chunkAt (List.replicate 2300 'c') 1600] ∧
        (chunkAt (List.replicate 2300 'c') 0).length = 1000 ∧
        (chunkAt (List.replicate 2300 'c') 800).length = 1000 ∧
        (chunkAt (List.replicate 2300 'c') 1600).length = 700 ∧ 700 < 1000) :=
  ⟨List.length_replicate 2300 'c',
    chunker_2300_example (List.replicate 2300 'c') (List.length_replicate 2300 'c')⟩

/-! ## Record identifiers (server.js `cleanString` line 242-244 and
`processFile` lines 307-320; ingest.js lines 92-102)

server.js: `function cleanString(str) { return str.replace(/[^a-zA-Z0-9]/g, ''); }`
and `id: `${idBase}-${i}`` with `idBase = cleanString(fileName)`.
ingest.js: `id: `chunk-${i}``, independent of the file name.
`natDigits` models JavaScript template-literal rendering of the
non-negative integer chunk index (decimal digits). -/

def isAlnum (c : Char) : Bool :=
  (('a' ≤ c) && (c ≤ 'z')) || (('A' ≤ c) && (c ≤ 'Z')) || (('0' ≤ c) && (c ≤ '9'))

def cleanString (s : List Char) : List Char :=
  s.filter isAlnum

def natDigitsAux : Nat → Nat → List Char
  | 0, _ => []
  | fuel + 1, n =>
    if n < 10 then [Nat.digitChar n]
    else natDigitsAux fuel (n / 10) ++ [Nat.digitChar (n % 10)]

def natDigits (n : Nat) : List Char := natDigitsAux (n + 1) n

def recordId (fileName : List Char) (i : Nat) : List Char :=
  cleanString fileName ++ '-' :: natDigits i

def ingestChunkId (i : Nat) : List Char :=
  String.toList "chunk-" ++ natDigits i

theorem digitChar_ne_dash (m : Nat) (h : m < 10) : Nat.digitChar m ≠ '-' := by
  interval_cases m <;> decide

theorem natDigitsAux_ne_dash (fuel : Nat) :
    ∀ n c, c ∈ natDigitsAux fuel n → c ≠ '-' := by
  induction fuel with
  | zero => intro n c hc; simp [natDigitsAux] at hc
  | succ fuel ih =>
    intro n c hc
    rw [natDigitsAux] at hc
    by_cases hn : n < 10
    · rw [if_pos hn] at hc
      simp only [List.mem_singleton] at hc
      exact hc ▸ digitChar_ne_dash n hn
    · rw [if_neg hn] at hc
      rcases List.mem_append.mp hc with h1 | h1
      · exact ih (n / 10) c h1
      · simp only [List.mem_singleton] at h1
        exact h1 ▸ digitChar_ne_dash (n % 10) (Nat.mod_lt n (by omega))

theorem natDigits_ne_dash (n : Nat) (c : Char) (hc : c ∈ natDigits n) : c ≠ '-' :=
  natDigitsAux_ne_dash (n + 1) n c hc

theorem cleanString_ne_dash (s : List Char) (c : Char) (hc : c ∈ cleanString s) :
    c ≠ '-' := by
  rw [cleanString, List.mem_filter] at hc
  intro hcon
  subst hcon
  exact absurd hc.2 (by decide)

theorem dash_parse_unique :
    ∀ (b1 : List Char) (b2 s1 s2 : List Char), '-' ∉ b1 → '-' ∉ b2 →
      b1 ++ '-' :: s1 = b2 ++ '-' :: s2 → b1 = b2 ∧ s1 = s2 := by
  intro b1
  induction b1 with
  | nil =>
    intro b2 s1 s2 _ hb2 heq
    cases b2 with
    | nil => simpa using heq
    | cons c t =>
      simp only [List.nil_append, List.cons_append, List.cons.injEq] at heq
      exact absurd (heq.1 ▸ List.mem_cons_self c t) hb2
  | cons c t ih =>
    intro b2 s1 s2 hb1 hb2 heq
    cases b2 with
    | nil =>
      simp only [List.nil_append, List.cons_append, List.cons.injEq] at heq
      exact absurd (heq.1.symm ▸ List.mem_cons_self c t) hb1
    | cons c' t' =>
      simp only [List.cons_append, List.cons.injEq] at heq
      obtain ⟨h1, h2⟩ := ih t' s1 s2
        (fun hm => hb1 (List.mem_cons_of_mem c hm))
        (fun hm => hb2 (List.mem_cons_of_mem c' hm)) heq.2
      exact ⟨by rw [heq.1, h1], h2⟩

/-- C2 (counterexample): two *distinct* source file names, `"a_b.pdf"` and
`"ab.pdf"`, sanitize to the same id base, so chunk 0 of both documents is
upserted under the same record id — the records of distinct documents can
collide, contradicting "records of distinct documents never collide". -/
theorem recordId_collision_counterexample :
    String.toList "a_b.pdf" ≠ String.toList "ab.pdf" ∧
      recordId (String.toList "a_b.pdf") 0 = recordId (String.toList "ab.pdf") 0 := by
  refine ⟨by decide, by decide⟩

/-- C2 (amended): in the HTTP-ingestion `processFile`, the record id for
chunk `i` of a file is deterministically `cleanString(fileName) ++ "-" ++ i`
(so re-ingesting the same document reuses exactly the same ids, overwriting
rather than duplicating), and two documents whose *sanitized* file names
differ never share a record id; the single-document `ingest.js` script
instead uses ids of the form `"chunk-" ++ i`, not derived from the file
name, and distinct raw file names may collide after sanitization. -/
theorem recordId_deterministic_and_disjoint (f1 f2 : List Char) (i j : Nat) :
    (cleanString f1 ≠ cleanString f2 → recordId f1 i ≠ recordId f2 j) ∧
      recordId f1 i = cleanString f1 ++ '-' :: natDigits i ∧
      ingestChunkId i = String.toList "chunk-" ++ natDigits i := by
  refine ⟨?_, rfl, rfl⟩
  intro hne heq
  rw [recordId, recordId] at heq
  exact hne (dash_parse_unique (cleanString f1) (cleanString f2) _ _
    (fun hm => cleanString_ne_dash f1 '-' hm rfl)
    (fun hm => cleanString_ne_dash f2 '-' hm rfl) heq).1

/-- C2 witness: two concretely distinct sanitized names give distinct ids. -/
theorem recordId_deterministic_and_disjoint_witness :
    recordId (String.toList "a.pdf") 0 ≠ recordId (String.toList "b.pdf") 7 ∧
      recordId (String.toList "a.pdf") 0 =
        cleanString (String.toList "a.pdf") ++ '-' :: natDigits 0 ∧
      ingestChunkId 0 = String.toList "chunk-" ++ natDigits 0 :=
  ⟨(recordId_deterministic_and_disjoint (String.toList "a.pdf")
      (String.toList "b.pdf") 0 7).1 (by decide),
    (recordId_deterministic_and_disjoint (String.toList "a.pdf")
      (String.toList "b.pdf") 0 7).2.1,
    (recordId_deterministic_and_disjoint (String.toList "a.pdf")
      (String.toList "b.pdf") 0 7).2.2⟩

/-! ## Ingestion record building (ingest.js lines 79-102)

Each chunk `i` becomes a record `{id: `chunk-${i}`, values: embedding,`
`metadata: {text: chunks[i], source: "BNS PDF"}}`; the embedding vector is
produced by the external model and plays no role in chunk texts, ids or
stored metadata text, so records are modelled as (id, text, source). -/

def ingestRecords (text : List Char) : List (List Char × List Char × List Char) :=
  (chunksOf text).enum.map (fun p => (ingestChunkId p.1, p.2, String.toList "BNS PDF"))

/-- C3: chunking and record construction are deterministic — two runs of the
embedded record-building function on the same document text with the same
chunking parameters produce the same chunk sequence, the same record ids and
the same stored metadata texts. -/
theorem ingest_records_deterministic (t1 t2 : List Char) (h : t1 = t2) :
    chunksOf t1 = chunksOf t2 ∧
      ingestRecords t1 = ingestRecords t2 ∧
      (ingestRecords t1).map (fun r => r.1) = (ingestRecords t2).map (fun r => r.1) ∧
      (ingestRecords t1).map (fun r => r.2.1) = (ingestRecords t2).map (fun r => r.2.1) := by
  subst h
  exact ⟨rfl, rfl, rfl, rfl⟩

/-- C3 witness: the determinism statement at a concrete document text. -/
theorem ingest_records_deterministic_witness :
    chunksOf (List.replicate 300 'd') = chunksOf (List.replicate 300 'd') ∧
      ingestRecords (List.replicate 300 'd') = ingestRecords (List.replicate 300 'd') ∧
      (ingestRecords (List.replicate 300 'd')).map (fun r => r.1) =
        (ingestRecords (List.replicate 300 'd')).map (fun r => r.1) ∧
      (ingestRecords (List.replicate 300 'd')).map (fun r => r.2.1) =
        (ingestRecords (List.replicate 300 'd')).map (fun r => r.2.1) :=
  ingest_records_deterministic (List.replicate 300 'd') (List.replicate 300 'd') rfl

/-! ## Retrieval assembly (server.js `/ask` lines 51-120 and `/compare`
lines 122-183)

`/compare` merges the two top-K result lists and deduplicates via a JS
`Set` over the formatted strings
`` `[Source: ${m.metadata?.source}] ${m.metadata?.text}` `` (insertion
order preserved), then joins with `"\n\n"`; if the merged context is empty
or shorter than 50 characters it responds with a fixed sentinel and never
calls the generation service.  `/ask` validates `query`, then always calls
the generation service on whatever context the matches produced.  A JS
`Set`'s insertion-ordered element list is modelled by `setStep`/`jsSetList`;
interpolation of a possibly-`undefined` field is modelled by `optStr`;
`x || "d"` on strings by `jsOr`. -/

structure MatchRec where
  id : String
  text : Option String
  source : Option String
deriving DecidableEq

def optStr : Option String → String
  | none => "undefined"
  | some s => s

def jsOr (o : Option String) (d : String) : String :=
  match o with
  | none => d
  | some s => if s = "" then d else s

def fmtMatch (m : MatchRec) : String :=
  "[Source: " ++ optStr m.source ++ "] " ++ optStr m.text

def setStep (acc : List String) (x : String) : List String :=
  if x ∈ acc then acc else acc ++ [x]

def jsSetList (l : List String) : List String :=
  l.foldl setStep []

def mergedKeys (m1 m2 : List MatchRec) : List String :=
  jsSetList ((m1 ++ m2).map fmtMatch)

def uniqueContext (m1 m2 : List MatchRec) : String :=
  String.intercalate "\n\n" (mergedKeys m1 m2)

def askContext (ms : List MatchRec) : String :=
  String.intercalate "\n\n----------------\n\n"
    (ms.map (fun m =>
      "[Source Document: " ++ jsOr m.source "Legal Doc" ++ "] \nContent: " ++
        jsOr m.text ""))

inductive HandlerOutcome where
  | badRequest (err : String)
  | sentinel (msg : String)
  | generated (context : String)
deriving DecidableEq

structure Trace where
  embeds : Nat
  vqueries : Nat
  gens : Nat
  outcome : HandlerOutcome
deriving DecidableEq

def jsFalsy (o : Option String) : Bool :=
  match o with
  | none => true
  | some s => s == ""

def askHandler (query : Option String) (ms : List MatchRec) : Trace :=
  if jsFalsy query then ⟨0, 0, 0, .badRequest "Query required"⟩
  else ⟨1, 1, 1, .generated (askContext ms)⟩

def compareHandler (section1 section2 : Option String)
    (m1 m2 : List MatchRec) : Trace :=
  if jsFalsy section1 || jsFalsy section2 then
    ⟨0, 0, 0, .badRequest "Both sections required"⟩
  else
    if uniqueContext m1 m2 == "" || (uniqueContext m1 m2).length < 50 then
      ⟨2, 2, 0,
        .sentinel "I could not find relevant sections in the database to compare."⟩
    else ⟨2, 2, 1, .generated (uniqueContext m1 m2)⟩

theorem mem_setFold (l : List String) :
    ∀ (acc : List String) (x : String),
      x ∈ l.foldl setStep acc ↔ x ∈ acc ∨ x ∈ l := by
  induction l with
  | nil => intro acc x; simp
  | cons y ys ih =>
    intro acc x
    rw [List.foldl_cons, ih]
    constructor
    · rintro (hx | hx)
      · rw [setStep] at hx
        by_cases hy : y ∈ acc
        · rw [if_pos hy] at hx; exact Or.inl hx
        · rw [if_neg hy] at hx
          rcases List.mem_append.mp hx with h1 | h1
          · exact Or.inl h1
          · simp only [List.mem_singleton] at h1
            exact Or.inr (h1 ▸ List.mem_cons_self y ys)
      · exact Or.inr (List.mem_cons_of_mem y hx)
    · rintro (hx | hx)
      · left
        rw [setStep]
        by_cases hy : y ∈ acc
        · rw [if_pos hy]; exact hx
        · rw [if_neg hy]; exact List.mem_append_left _ hx
      · rcases List.mem_cons.mp hx with h1 | h1
        · left
          rw [setStep]
          by_cases hy : y ∈ acc
          · rw [if_pos hy]; exact h1 ▸ hy
          · rw [if_neg hy]; exact List.mem_append_right _ (by simp [h1])
        · exact Or.inr h1

theorem nodup_setFold (l : List String) :
    ∀ acc : List String, acc.Nodup → (l.foldl setStep acc).Nodup := by
  induction l with
  | nil => intro acc h; exact h
  | cons y ys ih =>
    intro acc h
    rw [List.foldl_cons]
    apply ih
    rw [setStep]
    by_cases hy : y ∈ acc
    · rw [if_pos hy]; exact h
    · rw [if_neg hy]
      simpa [List.nodup_append] using ⟨h, hy⟩

theorem setFold_split (l : List String) :
    ∀ acc : List String, ∃ rest, l.foldl setStep acc = acc ++ rest ∧
      ∀ x ∈ rest, x ∈ l ∧ x ∉ acc := by
  induction l with
  | nil => intro acc; exact ⟨[], by simp, by simp⟩
  | cons y ys ih =>
    intro acc
    rw [List.foldl_cons, setStep]
    by_cases hy : y ∈ acc
    · rw [if_pos hy]
      obtain ⟨rest, h1, h2⟩ := ih acc
      exact ⟨rest, h1, fun x hx =>
        ⟨List.mem_cons_of_mem y (h2 x hx).1, (h2 x hx).2⟩⟩
    · rw [if_neg hy]
      obtain ⟨rest, h1, h2⟩ := ih (acc ++ [y])
      refine ⟨y :: rest, by rw [h1]; simp, ?_⟩
      intro x hx
      rcases List.mem_cons.mp hx with h3 | h3
      · exact ⟨h3 ▸ List.mem_cons_self y ys, h3 ▸ hy⟩
      · obtain ⟨h4, h5⟩ := h2 x h3
        refine ⟨List.mem_cons_of_mem y h4, fun hcon => h5 ?_⟩
        exact List.mem_append_left _ hcon

/-- C4: the merged `/compare` context deduplicates matches by exact equality
of their formatted text+source content (ids play no role): every retrieved
passage appears exactly once in the merged key list, nothing else appears,
and the merged order is first-seen order — the deduplicated first query's
matches followed by those of the second query's matches not already
retrieved by the first. -/
theorem compare_dedup_first_seen (m1 m2 : List MatchRec) :
    (∀ s ∈ (m1 ++ m2).map fmtMatch, List.count s (mergedKeys m1 m2) = 1) ∧
      (∀ s, s ∈ mergedKeys m1 m2 ↔ s ∈ (m1 ++ m2).map fmtMatch) ∧
      (∃ rest, mergedKeys m1 m2 = jsSetList (m1.map fmtMatch) ++ rest ∧
        ∀ x ∈ rest, x ∈ m2.map fmtMatch ∧ x ∉ m1.map fmtMatch) ∧
      (∀ a b : MatchRec, a.text = b.text → a.source = b.source →
        fmtMatch a = fmtMatch b) := by
  have hmem : ∀ s, s ∈ mergedKeys m1 m2 ↔ s ∈ (m1 ++ m2).map fmtMatch := by
    intro s
    simp only [mergedKeys, jsSetList]
    rw [mem_setFold]
    simp
  have hnd : (mergedKeys m1 m2).Nodup :=
    nodup_setFold _ [] List.nodup_nil
  refine ⟨?_, hmem, ?_, ?_⟩
  · intro s hs
    exact List.count_eq_one_of_mem hnd ((hmem s).mpr hs)
  · simp only [mergedKeys, jsSetList, List.map_append, List.foldl_append]
    obtain ⟨rest, h1, h2⟩ := setFold_split (m2.map fmtMatch)
      ((m1.map fmtMatch).foldl setStep [])
    refine ⟨rest, h1, ?_⟩
    intro x hx
    obtain ⟨h3, h4⟩ := h2 x hx
    refine ⟨h3, fun hcon => h4 ?_⟩
    rw [mem_setFold]
    exact Or.inr hcon
  · intro a b ht hs
    rw [fmtMatch, fmtMatch, ht, hs]

/-- C4 witness: a passage retrieved by both sub-queries (under different
record ids) appears exactly once, and the merged order extends the first
query's deduplicated keys. -/
theorem compare_dedup_first_seen_witness :
    List.count (fmtMatch ⟨"id1", some "t", some "s"⟩)
        (mergedKeys [⟨"id1", some "t", some "s"⟩] [⟨"id2", some "t", some "s"⟩]) = 1 ∧
      ∃ rest,
        mergedKeys [⟨"id1", some "t", some "s"⟩] [⟨"id2", some "t", some "s"⟩] =
          jsSetList ([(⟨"id1", some "t", some "s"⟩ : MatchRec)].map fmtMatch) ++ rest ∧
        ∀ x ∈ rest, x ∈ [(⟨"id2", some "t", some "s"⟩ : MatchRec)].map fmtMatch ∧
          x ∉ [(⟨"id1", some "t", some "s"⟩ : MatchRec)].map fmtMatch :=
  ⟨(compare_dedup_first_seen [⟨"id1", some "t", some "s"⟩]
      [⟨"id2", some "t", some "s"⟩]).1 _ (by simp),
    (compare_dedup_first_seen [⟨"id1", some "t", some "s"⟩]
      [⟨"id2", some "t", some "s"⟩]).2.2.1⟩

/-- C5 (counterexample): the claim covers "every retrieval request
(single-query or comparison)", but the `/ask` handler applies no
minimum-context check at all: with zero matches the assembled context is
empty (length 0 < 50) yet the generation service is still invoked. -/
theorem ask_short_context_still_generates :
    askHandler (some "What is theft?") [] =
        ⟨1, 1, 1, .generated (askContext [])⟩ ∧
      (askContext []).length = 0 ∧
      (askHandler (some "What is theft?") []).gens = 1 := by
  refine ⟨by rfl, by rfl, by rfl⟩

/-- C5 (amended): only the comparison endpoint applies the minimum-context
threshold: for every validated `/compare` request whose assembled context is
shorter than 50 characters, the handler returns the deterministic "could not
find relevant sections" sentinel and the generation service is not invoked
(zero generation calls); the `/ask` endpoint invokes generation regardless
of context length. -/
theorem compare_short_context_sentinel (s1 s2 : Option String)
    (m1 m2 : List MatchRec)
    (h1 : jsFalsy s1 = false) (h2 : jsFalsy s2 = false)
    (hshort : (uniqueContext m1 m2).length < 50) :
    compareHandler s1 s2 m1 m2 =
        ⟨2, 2, 0,
          .sentinel "I could not find relevant sections in the database to compare."⟩ ∧
      (compareHandler s1 s2 m1 m2).gens = 0 ∧
      (∀ q : Option String, ∀ m : List MatchRec, jsFalsy q = false →
        (askHandler q m).gens = 1) := by
  have hcond : (uniqueContext m1 m2 == "" || decide ((uniqueContext m1 m2).length < 50)) = true := by
    simp only [Bool.or_eq_true, decide_eq_true_eq]
    exact Or.inr hshort
  have hmain : compareHandler s1 s2 m1 m2 =
      ⟨2, 2, 0,
        .sentinel "I could not find relevant sections in the database to compare."⟩ := by
    rw [compareHandler, h1, h2]
    rw [Bool.or_self]
    rw [if_neg Bool.false_ne_true]
    rw [if_pos hcond]
  refine ⟨hmain, by rw [hmain], ?_⟩
  intro q m hq
  rw [askHandler, hq]
  rw [if_neg Bool.false_ne_true]

/-- C5 witness: a validated comparison with no matches yields the sentinel
and zero generation calls. -/
theorem compare_short_context_sentinel_witness :
    compareHandler (some "Section 498A") (some "BNS 85") [] [] =
        ⟨2, 2, 0,
          .sentinel "I could not find relevant sections in the database to compare."⟩ ∧
      (compareHandler (some "Section 498A") (some "BNS 85") [] []).gens = 0 ∧
      (∀ q : Option String, ∀ m : List MatchRec, jsFalsy q = false →
        (askHandler q m).gens = 1) :=
  compare_short_context_sentinel (some "Section 498A") (some "BNS 85") [] []
    (by rfl) (by rfl) (by decide)

/-- C10: an `/ask` request with no query, and a `/compare` request missing
either section, are rejected with HTTP 400 and an error object, with no
embedding call, no vector-store query and no generation call performed. -/
theorem validation_rejects_without_side_effects (q s1 s2 : Option String)
    (m ma mb : List MatchRec) :
    (q = none → askHandler q m = ⟨0, 0, 0, .badRequest "Query required"⟩) ∧
      (s1 = none ∨ s2 = none →
        compareHandler s1 s2 ma mb =
          ⟨0, 0, 0, .badRequest "Both sections required"⟩) := by
  constructor
  · intro hq
    subst hq
    rfl
  · intro hs
    rcases hs with hs | hs
    · subst hs
      rw [compareHandler]
      have hcond : (jsFalsy none || jsFalsy s2) = true := by
        rw [show jsFalsy none = true from rfl, Bool.true_or]
      rw [if_pos hcond]
    · subst hs
      rw [compareHandler]
      have hcond : (jsFalsy s1 || jsFalsy none) = true := by
        rw [show jsFalsy none = true from rfl, Bool.or_true]
      rw [if_pos hcond]

/-- C10 witness: concrete requests lacking the query / a section. -/
theorem validation_rejects_without_side_effects_witness :
    askHandler none [] = ⟨0, 0, 0, .badRequest "Query required"⟩ ∧
      compareHandler (some "Section 302") none [] [] =
        ⟨0, 0, 0, .badRequest "Both sections required"⟩ :=
  ⟨(validation_rejects_without_side_effects none (some "Section 302") none [] [] []).1 rfl,
    (validation_rejects_without_side_effects none (some "Section 302") none [] [] []).2
      (Or.inr rfl)⟩

/-! ## Embedding sanity check (server.js ingestion variant, `getEmbedding`
lines 227-239)

`const rawArray = Array.from(output.data).map(n => Number(n));`
`if (rawArray.some(isNaN)) { throw new Error("Embedding produced NaN values."); }`
`return rawArray;`

The produced components are IEEE doubles that this code only ever
*classifies*, so they are modelled by an inductive type distinguishing
finite values, NaN and the two infinities; JS `isNaN` is true exactly on
NaN (infinities are not NaN, and `Number.isFinite` is false on them). -/

inductive JsNum where
  | finite (v : Int)
  | nan
  | posInf
  | negInf
deriving DecidableEq

def jsIsNaN : JsNum → Bool
  | .nan => true
  | _ => false

def jsIsFinite : JsNum → Bool
  | .finite _ => true
  | _ => false

def getEmbedding (raw : List JsNum) : Except String (List JsNum) :=
  if raw.any jsIsNaN then Except.error "Embedding produced NaN values."
  else Except.ok raw

/-- C6 (counterexample): a vector containing an *infinite* (hence
non-finite, but non-NaN) component passes the check unchanged — the code
tests `isNaN` only, so "any non-finite component fails" is false. -/
theorem embedding_infinity_not_rejected :
    getEmbedding [JsNum.posInf] = Except.ok [JsNum.posInf] ∧
      jsIsFinite JsNum.posInf = false ∧
      ¬ ∃ e, getEmbedding [JsNum.posInf] = Except.error e := by
  refine ⟨rfl, rfl, ?_⟩
  rintro ⟨e, he⟩
  simp [getEmbedding, jsIsNaN] at he

/-- C6 (amended): the ingestion-path embed operation fails (with the
"Embedding produced NaN values." error) exactly when the produced vector
contains a NaN component, and otherwise returns the vector unchanged;
infinite components are not detected. -/
theorem embedding_nan_check (v : List JsNum) :
    (v.any jsIsNaN = true →
        getEmbedding v = Except.error "Embedding produced NaN values.") ∧
      (v.any jsIsNaN = false → getEmbedding v = Except.ok v) := by
  constructor
  · intro h
    rw [getEmbedding, h]
    rfl
  · intro h
    rw [getEmbedding, h]
    rfl

/-- C6 witness: a NaN-containing vector is rejected; a NaN-free one is
returned unchanged. -/
theorem embedding_nan_check_witness :
    getEmbedding [JsNum.nan, JsNum.finite 3] =
        Except.error "Embedding produced NaN values." ∧
      getEmbedding [JsNum.finite 1, JsNum.finite 2] =
        Except.ok [JsNum.finite 1, JsNum.finite 2] :=
  ⟨(embedding_nan_check [JsNum.nan, JsNum.finite 3]).1 rfl,
    (embedding_nan_check [JsNum.finite 1, JsNum.finite 2]).2 rfl⟩

/-! ## Batched upsert loops

server.js `processFile` (lines 310-354): records accumulate in `vectors`;
once `vectors.length >= BATCH_SIZE` (50) the batch is upserted inside
`try { await directHttpUpsert(vectors); count += vectors.length; }`
`catch (e) { console.error(...); vectors = []; }` — a failed batch is
logged and dropped and the loop continues; the trailing partial batch is
flushed the same way.  `runBatches ok i buf rs` returns (attempted batches,
final count) given a per-attempt success oracle `ok`.

ingest.js (lines 49-56, 92-116): `safeUpsert` has *no* try/catch — a
rejected upsert propagates out of `main`'s `await` and ends the run.
`runBatchesAbort` models that loop (`BATCH_SIZE` 20), returning
`Except.error` with the failing attempt index. -/

def BATCH_SIZE_HTTP : Nat := 50

def BATCH_SIZE_SDK : Nat := 20

def runBatches {α : Type} (ok : Nat → Bool) :
    Nat → List α → List α → List (List α) × Nat
  | i, buf, [] =>
    if buf.isEmpty then ([], 0)
    else ([buf], if ok i then buf.length else 0)
  | i, buf, r :: rs =>
    if BATCH_SIZE_HTTP ≤ (buf ++ [r]).length then
      ((buf ++ [r]) :: (runBatches ok (i + 1) [] rs).1,
        (if ok i then (buf ++ [r]).length else 0) + (runBatches ok (i + 1) [] rs).2)
    else runBatches ok i (buf ++ [r]) rs

def runBatchesAbort {α : Type} (ok : Nat → Bool) :
    Nat → List α → List α → Except Nat (List (List α) × Nat)
  | i, buf, [] =>
    if buf.isEmpty then Except.ok ([], 0)
    else if ok i then Except.ok ([buf], buf.length) else Except.error i
  | i, buf, r :: rs =>
    if BATCH_SIZE_SDK ≤ (buf ++ [r]).length then
      if ok i then
        match runBatchesAbort ok (i + 1) [] rs with
        | Except.ok res => Except.ok ((buf ++ [r]) :: res.1, (buf ++ [r]).length + res.2)
        | Except.error e => Except.error e
      else Except.error i
    else runBatchesAbort ok i (buf ++ [r]) rs

def successCount {α : Type} (ok : Nat → Bool) : Nat → List (List α) → Nat
  | _, [] => 0
  | i, b :: bs => (if ok i then b.length else 0) + successCount ok (i + 1) bs

theorem runBatches_attempts_indep {α : Type} (ok okp : Nat → Bool) :
    ∀ (rs : List α) (i : Nat) (buf : List α),
      (runBatches ok i buf rs).1 = (runBatches okp i buf rs).1 := by
  intro rs
  induction rs with
  | nil =>
    intro i buf
    rw [runBatches, runBatches]
    by_cases hb : buf.isEmpty
    · rw [if_pos hb, if_pos hb]
    · rw [if_neg hb, if_neg hb]
  | cons r rs ih =>
    intro i buf
    rw [runBatches, runBatches]
    by_cases hfull : BATCH_SIZE_HTTP ≤ (buf ++ [r]).length
    · rw [if_pos hfull, if_pos hfull]
      show (buf ++ [r]) :: (runBatches ok (i + 1) [] rs).1 =
        (buf ++ [r]) :: (runBatches okp (i + 1) [] rs).1
      rw [ih (i + 1) []]
    · rw [if_neg hfull, if_neg hfull]
      exact ih i (buf ++ [r])

theorem runBatches_flatten {α : Type} (ok : Nat → Bool) :
    ∀ (rs : List α) (i : Nat) (buf : List α),
      (runBatches ok i buf rs).1.flatten = buf ++ rs := by
  intro rs
  induction rs with
  | nil =>
    intro i buf
    rw [runBatches]
    by_cases hb : buf.isEmpty
    · rw [if_pos hb, List.isEmpty_iff.mp hb]
      rfl
    · rw [if_neg hb]
      simp
  | cons r rs ih =>
    intro i buf
    rw [runBatches]
    by_cases hfull : BATCH_SIZE_HTTP ≤ (buf ++ [r]).length
    · rw [if_pos hfull]
      simp only [List.flatten_cons, ih (i + 1) []]
      simp
    · rw [if_neg hfull]
      rw [ih i (buf ++ [r])]
      simp

theorem runBatches_count {α : Type} (ok : Nat → Bool) :
    ∀ (rs : List α) (i : Nat) (buf : List α),
      (runBatches ok i buf rs).2 = successCount ok i (runBatches ok i buf rs).1 := by
  intro rs
  induction rs with
  | nil =>
    intro i buf
    rw [runBatches]
    by_cases hb : buf.isEmpty
    · rw [if_pos hb]
      rfl
    · rw [if_neg hb]
      simp [successCount]
  | cons r rs ih =>
    intro i buf
    rw [runBatches]
    by_cases hfull : BATCH_SIZE_HTTP ≤ (buf ++ [r]).length
    · rw [if_pos hfull]
      simp only [successCount]
      rw [ih (i + 1) []]
    · rw [if_neg hfull]
      exact ih i (buf ++ [r])

/-- C7 (counterexample): in the ingest.js loop a failed batch upsert is not
caught: with 21 records and a transport that rejects the first full batch
of 20, the modelled run aborts with an error at attempt 0 — the remaining
records are never processed, contradicting "per-batch failure never aborts
the surrounding ingestion loop". -/
theorem ingest_batch_failure_aborts :
    runBatchesAbort (fun _ => false) 0 ([] : List Nat) (List.range 21) =
      Except.error 0 := by
  rfl

/-- C7 (amended): in the HTTP-ingestion `processFile` loop a failed batch is
dropped and the remaining batches are still processed: the list of attempted
batches does not depend on which upserts fail, every record ends up in
exactly one attempted batch (their concatenation is the record list), and
the final stored count is exactly the total size of the *successful*
batches — excluding each failed batch's records. In the ingest.js loop,
`safeUpsert` failures instead propagate and abort the run. -/
theorem processfile_batch_failure_isolated {α : Type} (ok okp : Nat → Bool)
    (rs : List α) :
    (runBatches ok 0 ([] : List α) rs).1 = (runBatches okp 0 ([] : List α) rs).1 ∧
      (runBatches ok 0 ([] : List α) rs).1.flatten = rs ∧
      (runBatches ok 0 ([] : List α) rs).2 =
        successCount ok 0 (runBatches ok 0 ([] : List α) rs).1 :=
  ⟨runBatches_attempts_indep ok okp rs 0 [],
    by rw [runBatches_flatten ok rs 0 []]; rfl,
    runBatches_count ok rs 0 []⟩
